import Mathlib

/-!
Shallow embedding of the `wasm-lin-solve` linear-equation solver.

The source is generic over a scalar type `T` with field arithmetic,
absolute value and a zero test; the embedding instantiates the scalar
with exact rational arithmetic (`ℚ`).  Division follows Lean's
convention `q / 0 = 0`.

Out-of-range indexed access (`Vec` indexing, `Option::unwrap` in
`Equation::get`/`get_mut`, `Vec::swap`) is a panic in the source; the
embedding models a panic as `none`, so every fallible operation of
`convert`/`solve` lives in the `Option` monad, with the source-level
`Result` kept as an inner `Except`.

Loops are rendered as structural recursion on the number of remaining
iterations (the `fuel` argument), with the running loop index passed
alongside, exactly mirroring the iteration ranges of the source.
-/

deriving instance DecidableEq for Except

namespace LinSolve

/-- `SolveError` from `solver.rs`: the closed error taxonomy. -/
inductive SolveError where
  | TooSmall : Nat → SolveError
  | UnfittingEquationAmount : Nat → Nat → SolveError
  | UnfittingCoefficientAmount : Nat → Nat → SolveError
  | DependentSolutionSet : SolveError
  | EmptySolutionSet : SolveError
deriving DecidableEq

/-- `Equation<T>`: an ordered coefficient sequence plus a result scalar. -/
structure Equation where
  coefficients : List ℚ
  result : ℚ
deriving DecidableEq

namespace Equation

/-- `Equation::new`. -/
def new (coefficients : List ℚ) (result : ℚ) : Equation :=
  ⟨coefficients, result⟩

/-- `Equation::get`: `*self.coefficients.get(idx).unwrap()`; the unwrap of an
out-of-range index is a panic, modelled as `none`. -/
def get (e : Equation) (idx : Nat) : Option ℚ :=
  e.coefficients[idx]?

/-- A write through `Equation::get_mut`: `self.coefficients.get_mut(idx).unwrap()`
followed by storing `v`; out of range is a panic, modelled as `none`. -/
def setCoeff (e : Equation) (idx : Nat) (v : ℚ) : Option Equation :=
  if idx < e.coefficients.length then
    some { e with coefficients := e.coefficients.set idx v }
  else
    none

/-- `Equation::get_result`. -/
def getResult (e : Equation) : ℚ :=
  e.result

/-- A write through `Equation::get_result_mut`. -/
def setResult (e : Equation) (v : ℚ) : Equation :=
  { e with result := v }

/-- `Equation::len`. -/
def len (e : Equation) : Nat :=
  e.coefficients.length

end Equation

/-- `CoefficientMatrix<T>`: a declared dimension plus the equations. -/
structure CoefficientMatrix where
  size : Nat
  matrix : List Equation
deriving DecidableEq

namespace CoefficientMatrix

/-- `CoefficientMatrix::new`. -/
def new (size : Nat) : CoefficientMatrix :=
  ⟨size, []⟩

/-- `CoefficientMatrix::add_equation`: push one equation. -/
def add_equation (self : CoefficientMatrix) (equation : Equation) : CoefficientMatrix :=
  { self with matrix := self.matrix ++ [equation] }

/-- `CoefficientMatrix::validate`, including the scan-and-overwrite search
for a row of unfitting length (the fold keeps the LAST mismatching length). -/
def validate (self : CoefficientMatrix) : Except SolveError CoefficientMatrix :=
  if self.size < 1 then
    .error (.TooSmall self.size)
  else if self.matrix.length = self.size then
    match self.matrix.foldl
        (fun unfitting_amount equation =>
          if equation.len ≠ self.size then some equation.len else unfitting_amount)
        none with
    | some amount => .error (.UnfittingCoefficientAmount amount self.size)
    | none => .ok self
  else
    .error (.UnfittingEquationAmount self.matrix.length self.size)

end CoefficientMatrix

/-- `Vec::swap(i, j)`: panics (here `none`) when either index is out of range. -/
def swapRows (mat : List Equation) (i j : Nat) : Option (List Equation) := do
  let x ← mat[i]?
  let y ← mat[j]?
  some ((mat.set i y).set j x)

/-- The pivot-search loop of `convert`: `for i in a+1..self.size`, swapping
whenever `self.matrix[i].get(a).abs() > pivot.abs()` and re-reading the pivot
after each swap.  `fuel` counts the remaining iterations; `i` is the loop index. -/
def pivotScan (a : Nat) : Nat → Nat → ℚ → List Equation → Option (ℚ × List Equation)
  | 0, _, pivot, mat => some (pivot, mat)
  | fuel + 1, i, pivot, mat => do
    let rowi ← mat[i]?
    let v ← rowi.get a
    if |v| > |pivot| then do
      let mat1 ← swapRows mat i a
      let rowa ← mat1[a]?
      let pivot1 ← rowa.get a
      pivotScan a fuel (i + 1) pivot1 mat1
    else
      pivotScan a fuel (i + 1) pivot mat

/-- The entry-update loop shared by `convert` (`for c in a..self.size`) and
`solve`'s back-elimination (`for k in 0..self.size`): subtract
`self.matrix[a].get(c) * ratio` from `self.matrix[b].get_mut(c)` for each
column `c` in the iteration range. -/
def elimEntries (a b : Nat) (ratio : ℚ) : Nat → Nat → List Equation → Option (List Equation)
  | 0, _, mat => some mat
  | fuel + 1, c, mat => do
    let rowa ← mat[a]?
    let vac ← rowa.get c
    let eliminator := vac * ratio
    let rowb ← mat[b]?
    let old ← rowb.get c
    let rowb1 ← rowb.setCoeff c (old - eliminator)
    elimEntries a b ratio fuel (c + 1) (mat.set b rowb1)

/-- The row-elimination loop of `convert`: `for b in a+1..self.size`, with
`ratio = self.matrix[b].get(a) / pivot`, eliminating columns `a..self.size`
and then updating the row's result. -/
def elimRows (n a : Nat) (pivot : ℚ) : Nat → Nat → List Equation → Option (List Equation)
  | 0, _, mat => some mat
  | fuel + 1, b, mat => do
    let rowb ← mat[b]?
    let vba ← rowb.get a
    let ratio := vba / pivot
    let mat1 ← elimEntries a b ratio (n - a) a mat
    let rowa ← mat1[a]?
    let rowb1 ← mat1[b]?
    let mat2 := mat1.set b (rowb1.setResult (rowb1.getResult - rowa.getResult * ratio))
    elimRows n a pivot fuel (b + 1) mat2

/-- The outer loop of `convert`: `for a in 0..self.size-1`, reading the
initial pivot `self.matrix[a].get(a)`, running the pivot search, then
eliminating the rows below. -/
def convertLoop (n : Nat) : Nat → Nat → List Equation → Option (List Equation)
  | 0, _, mat => some mat
  | fuel + 1, a, mat => do
    let rowa ← mat[a]?
    let pivot ← rowa.get a
    let pm ← pivotScan a (n - (a + 1)) (a + 1) pivot mat
    let mat1 ← elimRows n a pm.1 (n - (a + 1)) (a + 1) pm.2
    convertLoop n fuel (a + 1) mat1

namespace CoefficientMatrix

/-- `CoefficientMatrix::convert`: forward elimination with partial pivoting.
Always returns `Ok` in the source; a panic is `none`. -/
def convert (self : CoefficientMatrix) : Option (Except SolveError CoefficientMatrix) := do
  let mat ← convertLoop self.size (self.size - 1) 0 self.matrix
  some (.ok { self with matrix := mat })

end CoefficientMatrix

/-- The normalization loop of `solve`: `for j in 0..self.size`, replacing
`self.matrix[i].get_mut(j)` with `self.matrix[i].get(j) / divisor`. -/
def normEntries (i : Nat) (divisor : ℚ) : Nat → Nat → List Equation → Option (List Equation)
  | 0, _, mat => some mat
  | fuel + 1, j, mat => do
    let rowi ← mat[i]?
    let v ← rowi.get j
    let quotient := v / divisor
    let rowi1 ← rowi.setCoeff j quotient
    normEntries i divisor fuel (j + 1) (mat.set i rowi1)

/-- The upward elimination loop of `solve`: `for j in (0..i).rev()`, with
`factor = self.matrix[j].get(i)`, subtracting `factor` times row `i` from row
`j` over all columns `0..self.size` and updating row `j`'s result.  The
argument `j` is the number of rows still to process (rows `j-1` down to `0`). -/
def backElim (n i : Nat) : Nat → List Equation → Option (List Equation)
  | 0, mat => some mat
  | j + 1, mat => do
    let rowj ← mat[j]?
    let factor ← rowj.get i
    let mat1 ← elimEntries i j factor n 0 mat
    let rowi ← mat1[i]?
    let rowj1 ← mat1[j]?
    let mat2 := mat1.set j (rowj1.setResult (rowj1.getResult - rowi.getResult * factor))
    backElim n i j mat2

/-- The main loop of `solve`: `for i in (0..self.size).rev()`.  The argument
`i` is the number of rows still to process (rows `i-1` down to `0`).  A zero
divisor aborts the whole loop with `DependentSolutionSet` or
`EmptySolutionSet` according to the row's result. -/
def solveLoop (n : Nat) : Nat → List Equation → Option (Except SolveError (List Equation))
  | 0, mat => some (.ok mat)
  | i + 1, mat => do
    let rowi ← mat[i]?
    let divisor ← rowi.get i
    if divisor = 0 then
      if rowi.getResult = 0 then
        some (.error .DependentSolutionSet)
      else
        some (.error .EmptySolutionSet)
    else do
      let mat1 ← normEntries i divisor n 0 mat
      let rowi1 ← mat1[i]?
      let mat2 := mat1.set i (rowi1.setResult (rowi1.getResult / divisor))
      let mat3 ← backElim n i i mat2
      solveLoop n i mat3

namespace CoefficientMatrix

/-- `CoefficientMatrix::solve`: back-substitution to fully reduced form. -/
def solve (self : CoefficientMatrix) : Option (Except SolveError CoefficientMatrix) := do
  match ← solveLoop self.size self.size self.matrix with
  | .ok mat => some (.ok { self with matrix := mat })
  | .error e => some (.error e)

end CoefficientMatrix

/-! ### Specification-level accessors and predicates -/

/-- Coefficient in row `r`, column `c` (0 when out of range). -/
def entryAt (mat : List Equation) (r c : Nat) : ℚ :=
  match mat[r]? with
  | some e => e.coefficients.getD c 0
  | none => 0

/-- Result (right-hand side) of row `r` (0 when out of range). -/
def resAt (mat : List Equation) (r : Nat) : ℚ :=
  match mat[r]? with
  | some e => e.result
  | none => 0

/-- Every row has exactly `n` coefficients. -/
def rowsLen (n : Nat) (mat : List Equation) : Prop :=
  ∀ e ∈ mat, e.coefficients.length = n

/-- The validated shape: exactly `n` rows, each with exactly `n` coefficients. -/
def shaped (n : Nat) (mat : List Equation) : Prop :=
  mat.length = n ∧ rowsLen n mat

instance (n : Nat) (mat : List Equation) : Decidable (rowsLen n mat) := by
  unfold rowsLen; infer_instance

instance (n : Nat) (mat : List Equation) : Decidable (shaped n mat) := by
  unfold shaped; infer_instance

/-- Every entry strictly below the diagonal is zero (upper-triangular form). -/
def lowerZero (n : Nat) (mat : List Equation) : Prop :=
  ∀ r, r < n → ∀ c, c < r → entryAt mat r c = 0

/-- All diagonal entries are nonzero. -/
def diagNonzero (n : Nat) (mat : List Equation) : Prop :=
  ∀ i, i < n → entryAt mat i i ≠ 0

/-- The coefficient block is the `n × n` identity. -/
def isIdentity (n : Nat) (mat : List Equation) : Prop :=
  ∀ r, r < n → ∀ c, c < n → entryAt mat r c = if r = c then 1 else 0

instance (n : Nat) (mat : List Equation) : Decidable (lowerZero n mat) := by
  unfold lowerZero; infer_instance

instance (n : Nat) (mat : List Equation) : Decidable (diagNonzero n mat) := by
  unfold diagNonzero; infer_instance

instance (n : Nat) (mat : List Equation) : Decidable (isIdentity n mat) := by
  unfold isIdentity; infer_instance

/-! ### The pivot-selection step as the spec describes it

The spec's words: among rows `a..n-1`, find the row whose entry in column `a`
has the largest absolute value (ties keep the earliest row) and, if it is a
row other than `a` with a strictly larger absolute value, swap that single
row into position `a`.  These definitions follow the spec's words, to be
compared with `pivotScan`, which follows the source. -/

/-- Index of the earliest row, among `best` and the `fuel` rows starting at
`i`, whose entry in column `a` has the largest absolute value. -/
def bestRowFrom (mat : List Equation) (a : Nat) : Nat → Nat → Nat → Nat
  | 0, best, _ => best
  | fuel + 1, best, i =>
    if |entryAt mat i a| > |entryAt mat best a| then
      bestRowFrom mat a fuel i (i + 1)
    else
      bestRowFrom mat a fuel best (i + 1)

/-- Modelled from the spec: pivot selection as a single transposition of the
best row into position `a`. -/
def specPivotSelect (n a : Nat) (mat : List Equation) : List Equation :=
  let best := bestRowFrom mat a (n - (a + 1)) a (a + 1)
  if best = a then mat
  else
    match mat[a]?, mat[best]? with
    | some rowa, some rowb => (mat.set a rowb).set best rowa
    | _, _ => mat

/-! ### The polynomial evaluator (`function.rs`) -/

/-- `function::Error`. -/
inductive FnError where
  | EvaluationError : FnError
  | BuildError : FnError
deriving DecidableEq

/-- `Function::eval`: Horner evaluation of the coefficient sequence at `x`,
failing when the sequence is empty.  The running state is
`sum = coefficient + sum * x` per remaining coefficient. -/
def eval (coefficients : List ℚ) (x : ℚ) : Except FnError ℚ :=
  match coefficients with
  | [] => .error .EvaluationError
  | c :: rest => .ok (rest.foldl (fun sum coefficient => coefficient + sum * x) c)

/-- The mathematical value of the polynomial whose coefficient sequence is
given highest-degree first: `[c_0, ..., c_k]` denotes
`c_0 * x^k + c_1 * x^(k-1) + ... + c_k`. -/
def polyVal (coefficients : List ℚ) (x : ℚ) : ℚ :=
  match coefficients with
  | [] => 0
  | c :: rest => c * x ^ rest.length + polyVal rest x

/-! ### Basic lemmas about the accessors -/

theorem entryAt_congr {mat mat' : List Equation} {r : Nat}
    (h : mat'[r]? = mat[r]?) (c : Nat) : entryAt mat' r c = entryAt mat r c := by
  unfold entryAt
  rw [h]

theorem resAt_congr {mat mat' : List Equation} {r : Nat}
    (h : mat'[r]? = mat[r]?) : resAt mat' r = resAt mat r := by
  unfold resAt
  rw [h]

theorem entryAt_of_getElem {mat : List Equation} {r : Nat} {e : Equation}
    (h : mat[r]? = some e) (c : Nat) : entryAt mat r c = e.coefficients.getD c 0 := by
  unfold entryAt
  rw [h]

theorem resAt_of_getElem {mat : List Equation} {r : Nat} {e : Equation}
    (h : mat[r]? = some e) : resAt mat r = e.result := by
  unfold resAt
  rw [h]

theorem shaped_row {n : Nat} {mat : List Equation} {r : Nat}
    (h : shaped n mat) (hr : r < n) :
    ∃ e, mat[r]? = some e ∧ e.coefficients.length = n := by
  obtain ⟨hl, hrows⟩ := h
  have hrl : r < mat.length := by omega
  refine ⟨mat[r], List.getElem?_eq_some_iff.2 ⟨hrl, rfl⟩, ?_⟩
  exact hrows _ (List.getElem_mem hrl)

theorem shaped_set {n : Nat} {mat : List Equation} {b : Nat} {e : Equation}
    (h : shaped n mat) (he : e.coefficients.length = n) : shaped n (mat.set b e) := by
  refine ⟨by simpa using h.1, ?_⟩
  intro e' he'
  rcases List.mem_or_eq_of_mem_set he' with h' | rfl
  · exact h.2 e' h'
  · exact he

theorem Equation.get_eq_getD {e : Equation} {k : Nat}
    (h : k < e.coefficients.length) : e.get k = some (e.coefficients.getD k 0) := by
  unfold Equation.get
  rw [List.getElem?_eq_getElem h, List.getD_eq_getElem?_getD, List.getElem?_eq_getElem h]
  rfl

theorem Equation.setCoeff_eq {e : Equation} {k : Nat} (v : ℚ)
    (h : k < e.coefficients.length) :
    e.setCoeff k v = some ⟨e.coefficients.set k v, e.result⟩ := by
  unfold Equation.setCoeff
  rw [if_pos h]

theorem getD_set_lem (cs : List ℚ) (i k : Nat) (v : ℚ) (hi : i < cs.length) :
    (cs.set i v).getD k 0 = if i = k then v else cs.getD k 0 := by
  rw [List.getD_eq_getElem?_getD, List.getElem?_set, List.getD_eq_getElem?_getD]
  by_cases h : i = k
  · subst h
    simp [hi]
  · simp [h]

theorem entryAt_set_ne {mat : List Equation} {b r : Nat} {e : Equation}
    (h : b ≠ r) (c : Nat) : entryAt (mat.set b e) r c = entryAt mat r c :=
  entryAt_congr (List.getElem?_set_ne h) c

theorem entryAt_set_self {mat : List Equation} {b : Nat} {e : Equation}
    (h : b < mat.length) (c : Nat) :
    entryAt (mat.set b e) b c = e.coefficients.getD c 0 :=
  entryAt_of_getElem (List.getElem?_set_self h) c

theorem resAt_set_ne {mat : List Equation} {b r : Nat} {e : Equation}
    (h : b ≠ r) : resAt (mat.set b e) r = resAt mat r :=
  resAt_congr (List.getElem?_set_ne h)

theorem resAt_set_self {mat : List Equation} {b : Nat} {e : Equation}
    (h : b < mat.length) : resAt (mat.set b e) b = e.result :=
  resAt_of_getElem (List.getElem?_set_self h)

/-! ### Characterization of the entry-elimination loop -/

theorem elimEntries_step {a b c : Nat} (r : ℚ) {mat : List Equation}
    {rowa rowb : Equation}
    (hra : mat[a]? = some rowa) (hca : c < rowa.coefficients.length)
    (hrb : mat[b]? = some rowb) (hcb : c < rowb.coefficients.length) (fuel : Nat) :
    elimEntries a b r (fuel + 1) c mat =
      elimEntries a b r fuel (c + 1) (mat.set b
        ⟨rowb.coefficients.set c
          (rowb.coefficients.getD c 0 - rowa.coefficients.getD c 0 * r),
          rowb.result⟩) := by
  simp only [elimEntries, hra, hrb, Equation.get_eq_getD hca, Equation.get_eq_getD hcb,
    Equation.setCoeff_eq _ hcb, Option.bind_eq_bind, Option.some_bind]

theorem elimEntries_spec {n a b : Nat} (r : ℚ) (hab : a ≠ b) (ha : a < n) (hb : b < n) :
    ∀ (fuel c : Nat) (mat : List Equation), shaped n mat → c + fuel ≤ n →
      ∃ mat', elimEntries a b r fuel c mat = some mat' ∧
        shaped n mat' ∧
        (∀ p, p ≠ b → mat'[p]? = mat[p]?) ∧
        resAt mat' b = resAt mat b ∧
        (∀ k, entryAt mat' b k =
          if c ≤ k ∧ k < c + fuel then entryAt mat b k - entryAt mat a k * r
          else entryAt mat b k)
  | 0, c, mat, hm, _ =>
    ⟨mat, rfl, hm, fun _ _ => rfl, rfl, fun k => by rw [if_neg (by omega)]⟩
  | fuel + 1, c, mat, hm, hcf => by
    obtain ⟨rowa, hra, hla⟩ := shaped_row hm ha
    obtain ⟨rowb, hrb, hlb⟩ := shaped_row hm hb
    have hca : c < rowa.coefficients.length := by omega
    have hcb : c < rowb.coefficients.length := by omega
    have hbl : b < mat.length := by
      rw [hm.1]
      exact hb
    set rowb1 : Equation := ⟨rowb.coefficients.set c
      (rowb.coefficients.getD c 0 - rowa.coefficients.getD c 0 * r), rowb.result⟩
      with hrow1
    have hm1 : shaped n (mat.set b rowb1) := shaped_set hm (by simpa using hlb)
    obtain ⟨mat', hrun, hsh, hsame, hres, hent⟩ :=
      elimEntries_spec r hab ha hb fuel (c + 1) (mat.set b rowb1) hm1 (by omega)
    have hstep := elimEntries_step r hra hca hrb hcb fuel
    have hmatb : ∀ k, entryAt (mat.set b rowb1) b k =
        if c = k then entryAt mat b c - entryAt mat a c * r
        else entryAt mat b k := by
      intro k
      rw [entryAt_set_self hbl, hrow1]
      show (rowb.coefficients.set c _).getD k 0 = _
      rw [getD_set_lem _ _ _ _ hcb]
      rw [entryAt_of_getElem hrb, entryAt_of_getElem hra, entryAt_of_getElem hrb]
    have hmata : ∀ k, entryAt (mat.set b rowb1) a k = entryAt mat a k :=
      fun k => entryAt_set_ne (Ne.symm hab) k
    refine ⟨mat', by rw [hstep, hrun], hsh, ?_, ?_, ?_⟩
    · intro p hp
      rw [hsame p hp, List.getElem?_set_ne (fun h => hp h.symm)]
    · rw [hres, resAt_set_self hbl, hrow1, resAt_of_getElem hrb]
    · intro k
      have h1 := hent k
      by_cases hk : c = k
      · subst hk
        rw [if_neg (by omega)] at h1
        rw [h1, hmatb c, if_pos rfl, if_pos (by omega)]
      · by_cases hk2 : c + 1 ≤ k ∧ k < c + 1 + fuel
        · rw [if_pos hk2] at h1
          rw [h1, hmatb k, if_neg hk, hmata k, if_pos (by omega)]
        · rw [if_neg hk2] at h1
          rw [h1, hmatb k, if_neg hk, if_neg (by omega)]

/-! ### Characterization of the normalization loop -/

theorem entryAt_moved {mat mat' : List Equation} {q q₀ : Nat}
    (h : mat'[q]? = mat[q₀]?) (c : Nat) : entryAt mat' q c = entryAt mat q₀ c := by
  unfold entryAt
  rw [h]

theorem resAt_moved {mat mat' : List Equation} {q q₀ : Nat}
    (h : mat'[q]? = mat[q₀]?) : resAt mat' q = resAt mat q₀ := by
  unfold resAt
  rw [h]

theorem normEntries_step {i j : Nat} (divisor : ℚ) {mat : List Equation}
    {rowi : Equation} (hri : mat[i]? = some rowi)
    (hji : j < rowi.coefficients.length) (fuel : Nat) :
    normEntries i divisor (fuel + 1) j mat =
      normEntries i divisor fuel (j + 1) (mat.set i
        ⟨rowi.coefficients.set j (rowi.coefficients.getD j 0 / divisor),
          rowi.result⟩) := by
  simp only [normEntries, hri, Equation.get_eq_getD hji, Equation.setCoeff_eq _ hji,
    Option.bind_eq_bind, Option.some_bind]

theorem normEntries_spec {n i : Nat} (divisor : ℚ) (hi : i < n) :
    ∀ (fuel j : Nat) (mat : List Equation), shaped n mat → j + fuel ≤ n →
      ∃ mat', normEntries i divisor fuel j mat = some mat' ∧
        shaped n mat' ∧
        (∀ p, p ≠ i → mat'[p]? = mat[p]?) ∧
        resAt mat' i = resAt mat i ∧
        (∀ k, entryAt mat' i k =
          if j ≤ k ∧ k < j + fuel then entryAt mat i k / divisor
          else entryAt mat i k)
  | 0, j, mat, hm, _ =>
    ⟨mat, rfl, hm, fun _ _ => rfl, rfl, fun k => by rw [if_neg (by omega)]⟩
  | fuel + 1, j, mat, hm, hjf => by
    obtain ⟨rowi, hri, hli⟩ := shaped_row hm hi
    have hji : j < rowi.coefficients.length := by omega
    have hil : i < mat.length := by
      rw [hm.1]
      exact hi
    set rowi1 : Equation := ⟨rowi.coefficients.set j (rowi.coefficients.getD j 0 / divisor),
      rowi.result⟩ with hrow1
    have hm1 : shaped n (mat.set i rowi1) := shaped_set hm (by simpa using hli)
    obtain ⟨mat', hrun, hsh, hsame, hres, hent⟩ :=
      normEntries_spec divisor hi fuel (j + 1) (mat.set i rowi1) hm1 (by omega)
    have hstep := normEntries_step divisor hri hji fuel
    have hmati : ∀ k, entryAt (mat.set i rowi1) i k =
        if j = k then entryAt mat i j / divisor else entryAt mat i k := by
      intro k
      rw [entryAt_set_self hil, hrow1]
      show (rowi.coefficients.set j _).getD k 0 = _
      rw [getD_set_lem _ _ _ _ hji, entryAt_of_getElem hri, entryAt_of_getElem hri]
    refine ⟨mat', by rw [hstep, hrun], hsh, ?_, ?_, ?_⟩
    · intro p hp
      rw [hsame p hp, List.getElem?_set_ne (fun h => hp h.symm)]
    · rw [hres, resAt_set_self hil, hrow1, resAt_of_getElem hri]
    · intro k
      have h1 := hent k
      by_cases hk : j = k
      · subst hk
        rw [if_neg (by omega)] at h1
        rw [h1, hmati j, if_pos rfl, if_pos (by omega)]
      · by_cases hk2 : j + 1 ≤ k ∧ k < j + 1 + fuel
        · rw [if_pos hk2] at h1
          rw [h1, hmati k, if_neg hk, if_pos (by omega)]
        · rw [if_neg hk2] at h1
          rw [h1, hmati k, if_neg hk, if_neg (by omega)]

/-! ### Characterization of the pivot-search loop -/

theorem swapRows_spec {n : Nat} {mat : List Equation} {i j : Nat}
    (hm : shaped n mat) (hij : i ≠ j) (hi : i < n) (hj : j < n) :
    ∃ mat1, swapRows mat i j = some mat1 ∧ shaped n mat1 ∧
      mat1[i]? = mat[j]? ∧ mat1[j]? = mat[i]? ∧
      (∀ p, p ≠ i → p ≠ j → mat1[p]? = mat[p]?) := by
  have hi' : i < mat.length := by
    rw [hm.1]
    exact hi
  have hj' : j < mat.length := by
    rw [hm.1]
    exact hj
  have hgi : mat[i]? = some mat[i] := List.getElem?_eq_getElem hi'
  have hgj : mat[j]? = some mat[j] := List.getElem?_eq_getElem hj'
  refine ⟨(mat.set i mat[j]).set j mat[i], ?_, ?_, ?_, ?_, ?_⟩
  · unfold swapRows
    rw [hgi, hgj]
    rfl
  · exact shaped_set (shaped_set hm (hm.2 _ (List.getElem_mem hj')))
      (hm.2 _ (List.getElem_mem hi'))
  · rw [List.getElem?_set_ne (fun h => hij h.symm), List.getElem?_set_self (by simpa using hi')]
    exact hgj.symm
  · rw [List.getElem?_set_self (by simpa using hj')]
    exact hgi.symm
  · intro p hpi hpj
    rw [List.getElem?_set_ne (fun h => hpj h.symm), List.getElem?_set_ne (fun h => hpi h.symm)]

theorem pivotScan_spec {n a : Nat} (ha : a < n) :
    ∀ (fuel i : Nat) (pivot : ℚ) (mat : List Equation),
      shaped n mat → a < i → i + fuel = n → pivot = entryAt mat a a →
      ∃ p mat', pivotScan a fuel i pivot mat = some (p, mat') ∧
        shaped n mat' ∧
        p = entryAt mat' a a ∧
        |pivot| ≤ |p| ∧
        (∀ q, q < a → mat'[q]? = mat[q]?) ∧
        (∀ q, a < q → q < i → mat'[q]? = mat[q]?) ∧
        (∀ q, (q = a ∨ (i ≤ q ∧ q < n)) →
          ∃ q₀, (q₀ = a ∨ (i ≤ q₀ ∧ q₀ < n)) ∧ mat'[q]? = mat[q₀]?) ∧
        (∀ q, i ≤ q → q < n → |entryAt mat q a| ≤ |p|) ∧
        ((mat'[a]? = mat[a]? ∧ p = pivot) ∨
          (∃ j0, i ≤ j0 ∧ j0 < n ∧ mat'[a]? = mat[j0]? ∧
            |pivot| < |entryAt mat j0 a| ∧
            ∀ q, i ≤ q → q < j0 → |entryAt mat q a| < |entryAt mat j0 a|))
  | 0, i, pivot, mat, hm, hai, hif, hp => by
    refine ⟨pivot, mat, rfl, hm, hp, le_refl _, fun _ _ => rfl, fun _ _ _ => rfl,
      ?_, by omega, Or.inl ⟨rfl, rfl⟩⟩
    intro q hq
    exact ⟨q, hq, rfl⟩
  | fuel + 1, i, pivot, mat, hm, hai, hif, hp => by
    have hin : i < n := by omega
    obtain ⟨rowi, hri, hli⟩ := shaped_row hm hin
    have hal : a < rowi.coefficients.length := by omega
    have hgv : rowi.get a = some (rowi.coefficients.getD a 0) := Equation.get_eq_getD hal
    set v : ℚ := rowi.coefficients.getD a 0 with hv
    have hvia : entryAt mat i a = v := entryAt_of_getElem hri a
    by_cases hcmp : |v| > |pivot|
    · -- swap case
      obtain ⟨mat1, hsw, hm1, h1i, h1a, h1o⟩ :=
        swapRows_spec hm (by omega : i ≠ a) hin ha
      -- h1i : mat1[i]? = mat[a]?, h1a : mat1[a]? = mat[i]?
      have hra1 : mat1[a]? = some rowi := by rw [h1a, hri]
      have hp1 : v = entryAt mat1 a a := by
        rw [entryAt_moved h1a a, hvia]
      obtain ⟨p, mat', hrun, hsh, hpa, hple, hlow, hmid, hmap, hmax, hbest⟩ :=
        pivotScan_spec ha fuel (i + 1) v mat1 hm1 (by omega) (by omega) hp1
      have hkeep : ∀ q, i + 1 ≤ q → q < n → mat1[q]? = mat[q]? :=
        fun q hq1 hq2 => h1o q (by omega) (by omega)
      refine ⟨p, mat', ?_, hsh, hpa, ?_, ?_, ?_, ?_, ?_, ?_⟩
      · simp only [pivotScan, hri, hgv, Option.bind_eq_bind, Option.some_bind]
        rw [if_pos hcmp]
        simp only [hsw, hra1, hgv, Option.bind_eq_bind, Option.some_bind]
        exact hrun
      · calc |pivot| ≤ |v| := le_of_lt hcmp
          _ ≤ |p| := hple
      · intro q hq
        rw [hlow q hq, h1o q (by omega) (by omega)]
      · intro q hq1 hq2
        rw [hmid q hq1 (by omega), h1o q (by omega) (by omega)]
      · intro q hq
        rcases hq with rfl | ⟨hq1, hq2⟩
        · obtain ⟨q₀, hq₀, he⟩ := hmap q (Or.inl rfl)
          rcases hq₀ with rfl | ⟨h1, h2⟩
          · exact ⟨i, Or.inr ⟨le_refl _, hin⟩, by rw [he, h1a]⟩
          · exact ⟨q₀, Or.inr ⟨by omega, h2⟩, by rw [he, hkeep q₀ h1 h2]⟩
        · rcases Nat.lt_or_ge q (i + 1) with hqi | hqi
          · have : q = i := by omega
            subst this
            exact ⟨a, Or.inl rfl, by rw [hmid q (by omega) (by omega), h1i]⟩
          · obtain ⟨q₀, hq₀, he⟩ := hmap q (Or.inr ⟨hqi, hq2⟩)
            rcases hq₀ with rfl | ⟨h1, h2⟩
            · exact ⟨i, Or.inr ⟨le_refl _, hin⟩, by rw [he, h1a]⟩
            · exact ⟨q₀, Or.inr ⟨by omega, h2⟩, by rw [he, hkeep q₀ h1 h2]⟩
      · intro q hq1 hq2
        rcases Nat.lt_or_ge q (i + 1) with hqi | hqi
        · have : q = i := by omega
          subst this
          rw [hvia]
          calc |v| = |v| := rfl
            _ ≤ |p| := hple
        · have := hmax q hqi hq2
          rwa [entryAt_moved (hkeep q hqi hq2) a] at this
      · rcases hbest with ⟨hea, hep⟩ | ⟨j0, hj1, hj2, hj3, hj4, hj5⟩
        · refine Or.inr ⟨i, le_refl _, hin, ?_, ?_, by omega⟩
          · rw [hea, h1a]
          · rw [hvia]
            exact hcmp
        · refine Or.inr ⟨j0, by omega, hj2, ?_, ?_, ?_⟩
          · rw [hj3, hkeep j0 hj1 hj2]
          · have h4 : |entryAt mat1 j0 a| = |entryAt mat j0 a| := by
              rw [entryAt_moved (hkeep j0 hj1 hj2) a]
            rw [h4] at hj4
            calc |pivot| < |v| := hcmp
              _ < |entryAt mat j0 a| := hj4
          · intro q hq1 hq2
            have h4 : |entryAt mat1 j0 a| = |entryAt mat j0 a| := by
              rw [entryAt_moved (hkeep j0 hj1 hj2) a]
            rcases Nat.lt_or_ge q (i + 1) with hqi | hqi
            · have : q = i := by omega
              subst this
              rw [hvia]
              rw [h4] at hj4
              exact hj4
            · have := hj5 q hqi (by omega)
              rw [h4, entryAt_moved (hkeep q hqi (by omega)) a] at this
              exact this
    · -- no-swap case
      have hvle : |v| ≤ |pivot| := not_lt.1 hcmp
      obtain ⟨p, mat', hrun, hsh, hpa, hple, hlow, hmid, hmap, hmax, hbest⟩ :=
        pivotScan_spec ha fuel (i + 1) pivot mat hm (by omega) (by omega) hp
      refine ⟨p, mat', ?_, hsh, hpa, hple, hlow, ?_, ?_, ?_, ?_⟩
      · simp only [pivotScan, hri, hgv, Option.bind_eq_bind, Option.some_bind]
        rw [if_neg hcmp]
        exact hrun
      · intro q hq1 hq2
        exact hmid q hq1 (by omega)
      · intro q hq
        rcases hq with rfl | ⟨hq1, hq2⟩
        · obtain ⟨q₀, hq₀, he⟩ := hmap q (Or.inl rfl)
          rcases hq₀ with rfl | ⟨h1, h2⟩
          · exact ⟨q₀, Or.inl rfl, he⟩
          · exact ⟨q₀, Or.inr ⟨by omega, h2⟩, he⟩
        · rcases Nat.lt_or_ge q (i + 1) with hqi | hqi
          · have : q = i := by omega
            subst this
            exact ⟨q, Or.inr ⟨le_refl _, hq2⟩, hmid q (by omega) (by omega)⟩
          · obtain ⟨q₀, hq₀, he⟩ := hmap q (Or.inr ⟨hqi, hq2⟩)
            rcases hq₀ with rfl | ⟨h1, h2⟩
            · exact ⟨q₀, Or.inl rfl, he⟩
            · exact ⟨q₀, Or.inr ⟨by omega, h2⟩, he⟩
      · intro q hq1 hq2
        rcases Nat.lt_or_ge q (i + 1) with hqi | hqi
        · have : q = i := by omega
          subst this
          rw [hvia]
          calc |v| ≤ |pivot| := hvle
            _ ≤ |p| := hple
        · exact hmax q hqi hq2
      · rcases hbest with h | ⟨j0, hj1, hj2, hj3, hj4, hj5⟩
        · exact Or.inl h
        · refine Or.inr ⟨j0, by omega, hj2, hj3, hj4, ?_⟩
          intro q hq1 hq2
          rcases Nat.lt_or_ge q (i + 1) with hqi | hqi
          · have : q = i := by omega
            subst this
            rw [hvia]
            calc |v| ≤ |pivot| := hvle
              _ < |entryAt mat j0 a| := hj4
          · exact hj5 q hqi hq2

/-! ### Characterization of the row-elimination loop of `convert` -/

theorem elimRows_spec {n a : Nat} (pivot : ℚ) (ha : a < n) :
    ∀ (fuel b : Nat) (mat : List Equation), shaped n mat → a < b → b + fuel = n →
      entryAt mat a a = pivot →
      (pivot = 0 → ∀ q, b ≤ q → q < n → entryAt mat q a = 0) →
      ∃ mat', elimRows n a pivot fuel b mat = some mat' ∧
        shaped n mat' ∧
        (∀ q, q < b → mat'[q]? = mat[q]?) ∧
        (∀ q, b ≤ q → q < n → entryAt mat' q a = 0) ∧
        (∀ q c, c < a → entryAt mat' q c = entryAt mat q c)
  | 0, b, mat, hm, hab, hbf, hpe, hz =>
    ⟨mat, rfl, hm, fun _ _ => rfl, by omega, fun _ _ _ => rfl⟩
  | fuel + 1, b, mat, hm, hab, hbf, hpe, hz => by
    have hbn : b < n := by omega
    obtain ⟨rowb, hrb, hlb⟩ := shaped_row hm hbn
    have hbl : a < rowb.coefficients.length := by omega
    have hgv : rowb.get a = some (rowb.coefficients.getD a 0) := Equation.get_eq_getD hbl
    set vba : ℚ := rowb.coefficients.getD a 0 with hv
    have hvba : entryAt mat b a = vba := entryAt_of_getElem hrb a
    obtain ⟨mat1, hrun1, hm1, hsame1, hres1, hent1⟩ :=
      elimEntries_spec (vba / pivot) (by omega : a ≠ b) ha hbn (n - a) a mat hm (by omega)
    obtain ⟨rowb1, hrb1, hlb1⟩ := shaped_row hm1 hbn
    obtain ⟨rowa1, hra1, hla1⟩ := shaped_row hm1 ha
    have hbl1 : b < mat1.length := by
      rw [hm1.1]
      exact hbn
    set mat2 : List Equation :=
      mat1.set b (rowb1.setResult (rowb1.getResult - rowa1.getResult * (vba / pivot)))
      with hm2def
    have hm2 : shaped n mat2 := shaped_set hm1 hlb1
    have hent2 : ∀ q k, q ≠ b → entryAt mat2 q k = entryAt mat1 q k := by
      intro q k hq
      exact entryAt_set_ne (fun h => hq h.symm) k
    have hent2b : ∀ k, entryAt mat2 b k = entryAt mat1 b k := by
      intro k
      rw [entryAt_set_self hbl1]
      show (rowb1.coefficients.getD k 0) = _
      rw [entryAt_of_getElem hrb1]
    have hpe2 : entryAt mat2 a a = pivot := by
      rw [hent2 a a (by omega), entryAt_congr (hsame1 a (by omega)) a]
      exact hpe
    have hba2 : entryAt mat2 b a = 0 := by
      rw [hent2b a]
      have := hent1 a
      rw [if_pos (by omega)] at this
      rw [this, hvba, hpe]
      by_cases hp : pivot = 0
      · have hv0 : vba = 0 := by
          rw [← hvba]
          exact hz hp b (le_refl _) hbn
        rw [hv0, hp]
        norm_num
      · rw [mul_comm, div_mul_cancel₀ _ hp]
        ring
    have hz2 : pivot = 0 → ∀ q, b + 1 ≤ q → q < n → entryAt mat2 q a = 0 := by
      intro hp q hq1 hq2
      rw [hent2 q a (by omega), entryAt_congr (hsame1 q (by omega)) a]
      exact hz hp q (by omega) hq2
    obtain ⟨mat', hrun, hsh, hsame, hzero, hcols⟩ :=
      elimRows_spec pivot ha fuel (b + 1) mat2 hm2 (by omega) (by omega) hpe2 hz2
    refine ⟨mat', ?_, hsh, ?_, ?_, ?_⟩
    · simp only [elimRows, hrb, hgv, Option.bind_eq_bind, Option.some_bind, hrun1, hra1,
        hrb1, ← hm2def, hrun]
    · intro q hq
      rw [hsame q (by omega), List.getElem?_set_ne (by omega : b ≠ q),
        hsame1 q (by omega)]
    · intro q hq1 hq2
      rcases Nat.lt_or_ge q (b + 1) with hqb | hqb
      · have : q = b := by omega
        subst this
        rw [entryAt_congr (hsame q (by omega)) a]
        exact hba2
      · exact hzero q hqb hq2
    · intro q c hc
      rcases eq_or_ne q b with rfl | hqb
      · rw [entryAt_congr (hsame q (by omega)) c, hent2b c]
        have := hent1 c
        rw [if_neg (by omega)] at this
        rw [this]
      · by_cases hq : q < b + 1
        · rw [entryAt_congr (hsame q (by omega)) c, hent2 q c hqb,
            entryAt_congr (hsame1 q hqb) c]
        · rw [hcols q c hc, hent2 q c hqb, entryAt_congr (hsame1 q hqb) c]

/-! ### Characterization of the outer loop of `convert` -/

/-- Columns before `a` are already fully eliminated below the diagonal. -/
def colsZero (n a : Nat) (mat : List Equation) : Prop :=
  ∀ c, c < a → ∀ r2, c < r2 → r2 < n → entryAt mat r2 c = 0

theorem convertLoop_spec {n : Nat} :
    ∀ (fuel a : Nat) (mat : List Equation), a + fuel + 1 = n → shaped n mat →
      colsZero n a mat →
      ∃ mat', convertLoop n fuel a mat = some mat' ∧
        shaped n mat' ∧ colsZero n (a + fuel) mat'
  | 0, a, mat, haf, hm, hcz => ⟨mat, rfl, hm, hcz⟩
  | fuel + 1, a, mat, haf, hm, hcz => by
    have han : a < n := by omega
    obtain ⟨rowa, hra, hla⟩ := shaped_row hm han
    have hal : a < rowa.coefficients.length := by omega
    have hgv : rowa.get a = some (rowa.coefficients.getD a 0) := Equation.get_eq_getD hal
    have hvaa : entryAt mat a a = rowa.coefficients.getD a 0 := entryAt_of_getElem hra a
    obtain ⟨p, matp, hrunp, hmp, hpa, hple, hlow, hmid, hmap, hmax, hbest⟩ :=
      pivotScan_spec han (n - (a + 1)) (a + 1) (rowa.coefficients.getD a 0) mat hm
        (by omega) (by omega) hvaa.symm
    have hmapall : ∀ q, a ≤ q → q < n → ∃ q₀, a ≤ q₀ ∧ q₀ < n ∧ matp[q]? = mat[q₀]? := by
      intro q hq1 hq2
      rcases eq_or_ne q a with rfl | hqa
      · obtain ⟨q₀, hq₀, he⟩ := hmap q (Or.inl rfl)
        rcases hq₀ with rfl | ⟨h1, h2⟩
        · exact ⟨q₀, le_refl _, han, he⟩
        · exact ⟨q₀, by omega, h2, he⟩
      · obtain ⟨q₀, hq₀, he⟩ := hmap q (Or.inr ⟨by omega, hq2⟩)
        rcases hq₀ with rfl | ⟨h1, h2⟩
        · exact ⟨q₀, le_refl _, han, he⟩
        · exact ⟨q₀, by omega, h2, he⟩
    have hmaxp : ∀ q, a ≤ q → q < n → |entryAt matp q a| ≤ |p| := by
      intro q hq1 hq2
      obtain ⟨q₀, hq₀1, hq₀2, he⟩ := hmapall q hq1 hq2
      rw [entryAt_moved he a]
      rcases eq_or_ne q₀ a with rfl | hq₀a
      · rw [hvaa]
        exact hple
      · exact hmax q₀ (by omega) hq₀2
    have hczp : colsZero n a matp := by
      intro c hc r2 hr2 hrn
      rcases Nat.lt_or_ge r2 a with hra2 | hra2
      · rw [entryAt_congr (hlow r2 hra2) c]
        exact hcz c hc r2 hr2 hrn
      · obtain ⟨q₀, hq₀1, hq₀2, he⟩ := hmapall r2 hra2 hrn
        rw [entryAt_moved he c]
        exact hcz c hc q₀ (by omega) hq₀2
    have hzp : p = 0 → ∀ q, a + 1 ≤ q → q < n → entryAt matp q a = 0 := by
      intro hp q hq1 hq2
      have := hmaxp q (by omega) hq2
      rw [hp] at this
      simp only [abs_zero] at this
      exact abs_nonpos_iff.1 this
    obtain ⟨mat1, hrun1, hm1, hsame1, hzero1, hcols1⟩ :=
      elimRows_spec p han (n - (a + 1)) (a + 1) matp hmp (by omega) (by omega)
        hpa.symm hzp
    have hcz1 : colsZero n (a + 1) mat1 := by
      intro c hc r2 hr2 hrn
      rcases Nat.lt_or_ge c a with hca | hca
      · rw [hcols1 r2 c hca]
        exact hczp c hca r2 hr2 hrn
      · have : c = a := by omega
        subst this
        exact hzero1 r2 (by omega) hrn
    obtain ⟨mat', hrun, hsh, hcz'⟩ :=
      convertLoop_spec fuel (a + 1) mat1 (by omega) hm1 hcz1
    refine ⟨mat', ?_, hsh, by rw [show a + (fuel + 1) = a + 1 + fuel by omega]; exact hcz'⟩
    simp only [convertLoop, hra, hgv, Option.bind_eq_bind, Option.some_bind, hrunp, hrun1,
      hrun]

/-! ### The `validate` fold -/

theorem unfitFold_keep {n : Nat} :
    ∀ (l : List Equation) (acc : Option Nat), (∀ e ∈ l, e.len = n) →
      l.foldl (fun ua e => if e.len ≠ n then some e.len else ua) acc = acc
  | [], _, _ => rfl
  | e :: t, acc, h => by
    rw [List.foldl_cons, if_neg (by simp [h e (by simp)])]
    exact unfitFold_keep t acc (fun e' he' => h e' (by simp [he']))

theorem unfitFold_some {n : Nat} :
    ∀ (l : List Equation) (x : Nat),
      ∃ y, l.foldl (fun ua e => if e.len ≠ n then some e.len else ua) (some x) = some y
  | [], x => ⟨x, rfl⟩
  | e :: t, x => by
    rw [List.foldl_cons]
    by_cases he : e.len ≠ n
    · rw [if_pos he]
      exact unfitFold_some t e.len
    · rw [if_neg he]
      exact unfitFold_some t x

theorem unfitFold_none_forall {n : Nat} :
    ∀ (l : List Equation) (acc : Option Nat),
      l.foldl (fun ua e => if e.len ≠ n then some e.len else ua) acc = none →
      ∀ e ∈ l, e.len = n
  | [], _, _ => by simp
  | e :: t, acc, h => by
    rw [List.foldl_cons] at h
    intro e' he'
    rcases List.mem_cons.1 he' with rfl | he't
    · by_contra hne
      rw [if_pos hne] at h
      obtain ⟨y, hy⟩ := unfitFold_some (n := n) t e'.len
      rw [hy] at h
      exact Option.noConfusion h
    · exact unfitFold_none_forall t _ h e' he't

theorem unfitFold_last {n : Nat} :
    ∀ (l : List Equation) (acc : Option Nat),
      l.filter (fun e => e.len != n) ≠ [] →
      l.foldl (fun ua e => if e.len ≠ n then some e.len else ua) acc =
        ((l.filter (fun e => e.len != n)).map Equation.len).getLast?
  | [], _, h => absurd rfl h
  | e :: t, acc, h => by
    rw [List.foldl_cons, List.filter_cons]
    by_cases he : e.len = n
    · have hfe : (e.len != n) = false := by simp [he]
      rw [hfe]
      simp only [Bool.false_eq_true, if_false]
      rw [List.filter_cons, hfe] at h
      simp only [Bool.false_eq_true, if_false] at h
      rw [if_neg (by simp [he])]
      exact unfitFold_last t acc h
    · have hfe : (e.len != n) = true := by simp [he]
      rw [hfe]
      simp only [if_true]
      rw [if_pos he]
      by_cases ht : t.filter (fun e => e.len != n) = []
      · have hall : ∀ e' ∈ t, e'.len = n := by
          intro e' he'
          by_contra hne
          have : e' ∈ t.filter (fun e => e.len != n) :=
            List.mem_filter.2 ⟨he', by simp [hne]⟩
          rw [ht] at this
          exact absurd this (List.not_mem_nil e')
        rw [unfitFold_keep t _ hall, ht]
        rfl
      · rw [unfitFold_last t _ ht]
        obtain ⟨x, xs, hx⟩ := List.exists_cons_of_ne_nil ht
        rw [hx]
        rfl

theorem validate_ok_iff (M : CoefficientMatrix) :
    M.validate = .ok M ↔ 1 ≤ M.size ∧ shaped M.size M.matrix := by
  constructor
  · intro h
    unfold CoefficientMatrix.validate at h
    by_cases hs : M.size < 1
    · rw [if_pos hs] at h
      exact absurd h (by simp)
    · rw [if_neg hs] at h
      by_cases hl : M.matrix.length = M.size
      · rw [if_pos hl] at h
        refine ⟨by omega, hl, ?_⟩
        rcases hf : M.matrix.foldl
            (fun ua e => if e.len ≠ M.size then some e.len else ua) none with _ | am
        · exact fun e he => unfitFold_none_forall _ _ hf e he
        · rw [hf] at h
          exact absurd h (by simp)
      · rw [if_neg hl] at h
        exact absurd h (by simp)
  · rintro ⟨h1, hl, hrows⟩
    unfold CoefficientMatrix.validate
    rw [if_neg (by omega), if_pos hl, unfitFold_keep _ _ hrows]

/-! ### The master lemma for `convert` -/

theorem convert_ok {M : CoefficientMatrix} (h1 : 1 ≤ M.size)
    (hm : shaped M.size M.matrix) :
    ∃ mat', M.convert = some (.ok ⟨M.size, mat'⟩) ∧ shaped M.size mat' ∧
      colsZero M.size (M.size - 1) mat' := by
  obtain ⟨mat', hrun, hsh, hcz⟩ :=
    convertLoop_spec (M.size - 1) 0 M.matrix (by omega) hm
      (fun c hc => absurd hc (Nat.not_lt_zero c))
  refine ⟨mat', ?_, hsh, by simpa using hcz⟩
  unfold CoefficientMatrix.convert
  rw [hrun]
  rfl

theorem lowerZero_of_colsZero {n : Nat} {mat : List Equation}
    (h : colsZero n (n - 1) mat) : lowerZero n mat := by
  intro r hr c hc
  exact h c (by omega) r hc hr

/-! ### Characterization of the upward elimination loop of `solve` -/

theorem backElim_spec {n i : Nat} (hi : i < n) :
    ∀ (j : Nat) (mat : List Equation), shaped n mat → j ≤ i →
      ∃ mat', backElim n i j mat = some mat' ∧
        shaped n mat' ∧
        (∀ q, j ≤ q → mat'[q]? = mat[q]?) ∧
        (∀ q, q < j →
          (∀ k, k < n →
            entryAt mat' q k = entryAt mat q k - entryAt mat i k * entryAt mat q i) ∧
          resAt mat' q = resAt mat q - resAt mat i * entryAt mat q i)
  | 0, mat, hm, _ => ⟨mat, rfl, hm, fun _ _ => rfl, by omega⟩
  | j + 1, mat, hm, hji => by
    have hjn : j < n := by omega
    have hij : i ≠ j := by omega
    obtain ⟨rowj, hrj, hlj⟩ := shaped_row hm hjn
    have hjl : i < rowj.coefficients.length := by omega
    have hgf : rowj.get i = some (rowj.coefficients.getD i 0) := Equation.get_eq_getD hjl
    set factor : ℚ := rowj.coefficients.getD i 0 with hfdef
    have hfac : entryAt mat j i = factor := entryAt_of_getElem hrj i
    obtain ⟨mat1, hrun1, hm1, hsame1, hres1, hent1⟩ :=
      elimEntries_spec factor hij hi hjn n 0 mat hm (by omega)
    obtain ⟨rowi1, hri1, hli1⟩ := shaped_row hm1 hi
    obtain ⟨rowj1, hrj1, hlj1⟩ := shaped_row hm1 hjn
    have hjl1 : j < mat1.length := by
      rw [hm1.1]
      exact hjn
    set mat2 : List Equation :=
      mat1.set j (rowj1.setResult (rowj1.getResult - rowi1.getResult * factor))
      with hm2def
    have hm2 : shaped n mat2 := shaped_set hm1 hlj1
    have hent2 : ∀ q k, q ≠ j → entryAt mat2 q k = entryAt mat1 q k :=
      fun q k hq => entryAt_set_ne (fun h => hq h.symm) k
    have hres2 : ∀ q, q ≠ j → resAt mat2 q = resAt mat1 q :=
      fun q hq => resAt_set_ne (fun h => hq h.symm)
    have hent2j : ∀ k, entryAt mat2 j k = entryAt mat1 j k := by
      intro k
      rw [entryAt_set_self hjl1]
      show rowj1.coefficients.getD k 0 = _
      rw [entryAt_of_getElem hrj1]
    have hres2j : resAt mat2 j = resAt mat1 j - resAt mat1 i * factor := by
      rw [resAt_set_self hjl1]
      show rowj1.result - rowi1.result * factor = _
      rw [resAt_of_getElem hrj1, resAt_of_getElem hri1]
    obtain ⟨mat', hrun, hsh, hsame, hrows⟩ := backElim_spec hi j mat2 hm2 (by omega)
    have hm1i : mat1[i]? = mat[i]? := hsame1 i hij
    have hm2i : mat2[i]? = mat[i]? := by
      rw [← hm1i]
      exact List.getElem?_set_ne (by omega : j ≠ i)
    refine ⟨mat', ?_, hsh, ?_, ?_⟩
    · simp only [backElim, hrj, hgf, Option.bind_eq_bind, Option.some_bind, hrun1,
        hri1, hrj1, ← hm2def, hrun]
    · intro q hq
      rw [hsame q (by omega), List.getElem?_set_ne (by omega : j ≠ q), hsame1 q (by omega)]
    · intro q hq
      rcases eq_or_ne q j with rfl | hqj
      · constructor
        · intro k hk
          rw [entryAt_congr (hsame q (le_refl _)) k, hent2j k]
          have := hent1 k
          rw [if_pos (by omega)] at this
          rw [this, hfac]
        · rw [resAt_congr (hsame q (le_refl _)), hres2j, hres1,
            resAt_congr hm1i, hfac]
      · have hqj' : q < j := by omega
        obtain ⟨hrow, hres⟩ := hrows q hqj'
        have hq2 : ∀ k, entryAt mat2 q k = entryAt mat q k := by
          intro k
          rw [hent2 q k hqj, entryAt_congr (hsame1 q hqj) k]
        have hq2r : resAt mat2 q = resAt mat q := by
          rw [hres2 q hqj, resAt_congr (hsame1 q hqj)]
        constructor
        · intro k hk
          rw [hrow k hk, hq2 k, entryAt_congr hm2i k, hq2 i]
        · rw [hres, hq2r, resAt_congr hm2i, hq2 i]

/-! ### The main invariant of `solve` -/

theorem solveLoop_invariant {n : Nat} (orig : List Equation)
    (hut : ∀ r, r < n → ∀ c, c < r → entryAt orig r c = 0)
    (hdiag : ∀ r, r < n → entryAt orig r r ≠ 0) :
    ∀ (i : Nat) (mat : List Equation), i ≤ n → shaped n mat →
      (∀ k, i ≤ k → k < n → ∀ c, c < n → entryAt mat k c = if c = k then 1 else 0) →
      (∀ j, j < i → ∀ c, c < n →
        (c < i → entryAt mat j c = entryAt orig j c) ∧
        (i ≤ c → entryAt mat j c = 0)) →
      (∀ j, j < i → resAt mat j =
        resAt orig j - ∑ k ∈ Finset.Ico i n, entryAt orig j k * resAt mat k) →
      (∀ k, i ≤ k → k < n →
        ∑ j ∈ Finset.range n, entryAt orig k j * resAt mat j = resAt orig k) →
      ∃ mat', solveLoop n i mat = some (.ok mat') ∧ shaped n mat' ∧
        (∀ k, k < n → ∀ c, c < n → entryAt mat' k c = if c = k then 1 else 0) ∧
        (∀ k, k < n →
          ∑ j ∈ Finset.range n, entryAt orig k j * resAt mat' j = resAt orig k)
  | 0, mat, _, hm, hdone, _, _, heqs =>
    ⟨mat, rfl, hm, fun k hk => hdone k (by omega) hk, fun k hk => heqs k (by omega) hk⟩
  | i + 1, mat, hin, hm, hdone, hpend, hpres, heqs => by
    have hiltn : i < n := by omega
    obtain ⟨rowi, hri, hli⟩ := shaped_row hm hiltn
    have hil : i < rowi.coefficients.length := by omega
    have hgd : rowi.get i = some (rowi.coefficients.getD i 0) := Equation.get_eq_getD hil
    set d : ℚ := rowi.coefficients.getD i 0 with hddef
    have hdii : entryAt mat i i = d := entryAt_of_getElem hri i
    have hdorig : entryAt mat i i = entryAt orig i i :=
      (hpend i (by omega) i hiltn).1 (by omega)
    have hdne : d ≠ 0 := by
      intro h
      exact hdiag i hiltn (by rw [← hdorig, hdii, h])
    obtain ⟨mat1, hrun1, hm1, hsame1, hres1, hent1⟩ :=
      normEntries_spec d hiltn n 0 mat hm (by omega)
    obtain ⟨rowi1, hri1, hli1⟩ := shaped_row hm1 hiltn
    have hil1 : i < mat1.length := by
      rw [hm1.1]
      exact hiltn
    set mat2 : List Equation := mat1.set i (rowi1.setResult (rowi1.getResult / d))
      with hm2def
    have hm2 : shaped n mat2 := shaped_set hm1 hli1
    have hent2 : ∀ q k, q ≠ i → entryAt mat2 q k = entryAt mat1 q k :=
      fun q k hq => entryAt_set_ne (fun h => hq h.symm) k
    have hres2 : ∀ q, q ≠ i → resAt mat2 q = resAt mat1 q :=
      fun q hq => resAt_set_ne (fun h => hq h.symm)
    have hent2i : ∀ k, entryAt mat2 i k = entryAt mat1 i k := by
      intro k
      rw [entryAt_set_self hil1]
      show rowi1.coefficients.getD k 0 = _
      rw [entryAt_of_getElem hri1]
    have hres2i : resAt mat2 i = resAt mat i / d := by
      rw [resAt_set_self hil1]
      show rowi1.result / d = _
      have : resAt mat1 i = rowi1.result := resAt_of_getElem hri1
      rw [← this, hres1]
    have hrowIdent : ∀ c, c < n → entryAt mat2 i c = if c = i then 1 else 0 := by
      intro c hc
      rw [hent2i c]
      have h1 := hent1 c
      rw [if_pos ⟨by omega, by omega⟩] at h1
      rw [h1]
      by_cases hci : c = i
      · subst hci
        rw [if_pos rfl, hdii]
        exact div_self hdne
      · rw [if_neg hci]
        rcases Nat.lt_or_ge c i with hci' | hci'
        · have h2 := (hpend i (by omega) c hc).1 (by omega)
          rw [h2, hut i hiltn c hci', zero_div]
        · have h2 := (hpend i (by omega) c hc).2 (by omega)
          rw [h2, zero_div]
    obtain ⟨mat3, hrun3, hm3, hsame3, hrows3⟩ := backElim_spec hiltn i mat2 hm2 (le_refl i)
    have hkeep : ∀ k, i + 1 ≤ k → mat3[k]? = mat[k]? := by
      intro k hk
      rw [hsame3 k (by omega), List.getElem?_set_ne (by omega : i ≠ k), hsame1 k (by omega)]
    have hres3i : resAt mat3 i = resAt mat i / d := by
      rw [resAt_congr (hsame3 i (le_refl i)), hres2i]
    have hent3i : ∀ c, c < n → entryAt mat3 i c = if c = i then 1 else 0 := by
      intro c hc
      rw [entryAt_congr (hsame3 i (le_refl i)) c]
      exact hrowIdent c hc
    -- facts about pending rows after this step
    have hpend2 : ∀ j, j < i → ∀ k, entryAt mat2 j k = entryAt mat j k := by
      intro j hj k
      rw [hent2 j k (by omega), entryAt_congr (hsame1 j (by omega)) k]
    have hpres2 : ∀ j, j < i → resAt mat2 j = resAt mat j := by
      intro j hj
      rw [hres2 j (by omega), resAt_congr (hsame1 j (by omega))]
    have hent3 : ∀ j, j < i → ∀ c, c < n →
        entryAt mat3 j c = entryAt mat j c - (if c = i then 1 else 0) * entryAt mat j i := by
      intro j hj c hc
      have h1 := (hrows3 j hj).1 c hc
      rw [h1, hpend2 j hj c, hrowIdent c hc, hpend2 j hj i]
    have hres3 : ∀ j, j < i →
        resAt mat3 j = resAt mat j - (resAt mat i / d) * entryAt mat j i := by
      intro j hj
      have h1 := (hrows3 j hj).2
      rw [h1, hpres2 j hj, hres2i, hpend2 j hj i]
    -- the sum over the still-identical rows
    have hsum_keep : ∀ (f : Nat → ℚ),
        ∑ k ∈ Finset.Ico (i + 1) n, f k * resAt mat3 k =
          ∑ k ∈ Finset.Ico (i + 1) n, f k * resAt mat k := by
      intro f
      refine Finset.sum_congr rfl ?_
      intro k hk
      rw [Finset.mem_Ico] at hk
      rw [resAt_moved (hkeep k hk.1)]
    -- establish the invariant for the recursive call
    have inv_done : ∀ k, i ≤ k → k < n → ∀ c, c < n →
        entryAt mat3 k c = if c = k then 1 else 0 := by
      intro k hk1 hk2 c hc
      rcases eq_or_ne k i with rfl | hki
      · exact hent3i c hc
      · rw [entryAt_congr (hkeep k (by omega)) c]
        exact hdone k (by omega) hk2 c hc
    have inv_pend : ∀ j, j < i → ∀ c, c < n →
        (c < i → entryAt mat3 j c = entryAt orig j c) ∧
        (i ≤ c → entryAt mat3 j c = 0) := by
      intro j hj c hc
      constructor
      · intro hci
        rw [hent3 j hj c hc, if_neg (by omega)]
        have := (hpend j (by omega) c hc).1 (by omega)
        rw [this]
        ring
      · intro hci
        rcases eq_or_ne c i with rfl | hcine
        · rw [hent3 j hj c hc, if_pos rfl]
          ring
        · rw [hent3 j hj c hc, if_neg hcine]
          have := (hpend j (by omega) c hc).2 (by omega)
          rw [this]
          ring
    have hpresi : resAt mat i =
        resAt orig i - ∑ k ∈ Finset.Ico (i + 1) n, entryAt orig i k * resAt mat k :=
      hpres i (by omega)
    have inv_pres : ∀ j, j < i → resAt mat3 j =
        resAt orig j - ∑ k ∈ Finset.Ico i n, entryAt orig j k * resAt mat3 k := by
      intro j hj
      rw [hres3 j hj, hpres j (by omega),
        Finset.sum_eq_sum_Ico_succ_bot (by omega : i < n)
          (fun k => entryAt orig j k * resAt mat3 k),
        hsum_keep (fun k => entryAt orig j k), hres3i]
      have hji : entryAt mat j i = entryAt orig j i :=
        (hpend j (by omega) i hiltn).1 (by omega)
      rw [hji]
      ring
    have inv_eqs : ∀ k, i ≤ k → k < n →
        ∑ j ∈ Finset.range n, entryAt orig k j * resAt mat3 j = resAt orig k := by
      intro k hk1 hk2
      rcases eq_or_ne k i with rfl | hki
      · -- the freshly solved row
        rw [Finset.range_eq_Ico,
          ← Finset.sum_Ico_consecutive (fun j => entryAt orig k j * resAt mat3 j)
            (by omega : 0 ≤ k) (by omega : k ≤ n),
          Finset.sum_eq_zero (fun j hj => by
            rw [Finset.mem_Ico] at hj
            rw [hut k hk2 j hj.2, zero_mul]),
          Finset.sum_eq_sum_Ico_succ_bot (by omega : k < n)
            (fun j => entryAt orig k j * resAt mat3 j),
          hsum_keep (fun j => entryAt orig k j), hres3i, hpresi]
        have hdo : entryAt orig k k = d := by
          rw [← hdorig, hdii]
        rw [hdo, mul_div_cancel₀ _ hdne]
        ring
      · -- rows solved in earlier iterations
        have hk1' : i + 1 ≤ k := by omega
        rw [← heqs k (by omega) hk2]
        refine Finset.sum_congr rfl ?_
        intro j hj
        rw [Finset.mem_range] at hj
        rcases Nat.lt_or_ge j (i + 1) with hji | hji
        · rw [hut k hk2 j (by omega), zero_mul, zero_mul]
        · rw [resAt_moved (hkeep j hji)]
    obtain ⟨mat', hrun', hsh', hident', heqs'⟩ :=
      solveLoop_invariant orig hut hdiag i mat3 (by omega) hm3 inv_done inv_pend
        inv_pres inv_eqs
    refine ⟨mat', ?_, hsh', hident', heqs'⟩
    simp only [solveLoop, hri, hgd, Option.bind_eq_bind, Option.some_bind]
    rw [if_neg hdne]
    simp only [hrun1, hri1, Option.bind_eq_bind, Option.some_bind, ← hm2def, hrun3, hrun']

/-! ### Totality of `solve` on shaped input -/

theorem solveLoop_total {n : Nat} :
    ∀ (i : Nat) (mat : List Equation), i ≤ n → shaped n mat →
      ∃ r, solveLoop n i mat = some r
  | 0, mat, _, _ => ⟨.ok mat, rfl⟩
  | i + 1, mat, hin, hm => by
    have hiltn : i < n := by omega
    obtain ⟨rowi, hri, hli⟩ := shaped_row hm hiltn
    have hil : i < rowi.coefficients.length := by omega
    have hgd : rowi.get i = some (rowi.coefficients.getD i 0) := Equation.get_eq_getD hil
    by_cases hd : rowi.coefficients.getD i 0 = 0
    · by_cases hr : rowi.getResult = 0
      · refine ⟨.error .DependentSolutionSet, ?_⟩
        simp only [solveLoop, hri, hgd, Option.bind_eq_bind, Option.some_bind]
        rw [if_pos hd, if_pos hr]
      · refine ⟨.error .EmptySolutionSet, ?_⟩
        simp only [solveLoop, hri, hgd, Option.bind_eq_bind, Option.some_bind]
        rw [if_pos hd, if_neg hr]
    · obtain ⟨mat1, hrun1, hm1, _, _, _⟩ :=
        normEntries_spec (rowi.coefficients.getD i 0) hiltn n 0 mat hm (by omega)
      obtain ⟨rowi1, hri1, hli1⟩ := shaped_row hm1 hiltn
      have hm2 : shaped n (mat1.set i
          (rowi1.setResult (rowi1.getResult / rowi.coefficients.getD i 0))) :=
        shaped_set hm1 hli1
      obtain ⟨mat3, hrun3, hm3, _, _⟩ := backElim_spec hiltn i _ hm2 (le_refl i)
      obtain ⟨r, hr⟩ := solveLoop_total i mat3 (by omega) hm3
      refine ⟨r, ?_⟩
      simp only [solveLoop, hri, hgd, Option.bind_eq_bind, Option.some_bind]
      rw [if_neg hd]
      simp only [hrun1, hri1, Option.bind_eq_bind, Option.some_bind, hrun3, hr]

/-! ### Theorems for the claims -/

/-- C1: for the matrix with declared size 2 and rows `[8, -6] = 2` then
`[2, 3] = 2`: `validate` succeeds, `convert` yields rows `[8, -6] = 2` and
`[0, 4.5] = 1.5`, and `solve` on that converted matrix yields rows
`[1, 0] = 0.5` and `[0, 1] = 1/3`. -/
theorem spec_scenario_pipeline :
    (((CoefficientMatrix.new 2).add_equation (.new [8, -6] 2)).add_equation
        (.new [2, 3] 2)).validate =
      .ok (((CoefficientMatrix.new 2).add_equation (.new [8, -6] 2)).add_equation
        (.new [2, 3] 2)) ∧
    (((CoefficientMatrix.new 2).add_equation (.new [8, -6] 2)).add_equation
        (.new [2, 3] 2)).convert =
      some (.ok (CoefficientMatrix.mk 2 [.new [8, -6] 2, .new [0, 9/2] (3/2)])) ∧
    (CoefficientMatrix.mk 2 [.new [8, -6] 2, .new [0, 9/2] (3/2)]).solve =
      some (.ok (CoefficientMatrix.mk 2 [.new [1, 0] (1/2), .new [0, 1] (1/3)])) := by
  refine ⟨?_, ?_, ?_⟩ <;> with_unfolding_all decide

/-- C2: on every validated matrix, `convert` succeeds and (in exact rational
arithmetic) every entry strictly below the diagonal of the result is zero,
with the declared dimension unchanged. -/
theorem convert_upper_triangular (M : CoefficientMatrix)
    (hv : M.validate = .ok M) :
    ∃ M', M.convert = some (.ok M') ∧ M'.size = M.size ∧
      lowerZero M.size M'.matrix := by
  obtain ⟨h1, hm⟩ := (validate_ok_iff M).1 hv
  obtain ⟨mat', hrun, hsh, hcz⟩ := convert_ok h1 hm
  exact ⟨⟨M.size, mat'⟩, hrun, rfl, lowerZero_of_colsZero hcz⟩

theorem convert_upper_triangular_witness :
    (CoefficientMatrix.mk 2 [.new [8, -6] 2, .new [2, 3] 2]).validate =
        .ok (CoefficientMatrix.mk 2 [.new [8, -6] 2, .new [2, 3] 2]) ∧
      ∃ M', (CoefficientMatrix.mk 2 [.new [8, -6] 2, .new [2, 3] 2]).convert =
          some (.ok M') ∧ M'.size = 2 ∧ lowerZero 2 M'.matrix :=
  ⟨by with_unfolding_all decide,
    convert_upper_triangular _ (by with_unfolding_all decide)⟩

/-- C6: on every validated matrix, `convert` always returns a success value
and never an error, even when a pivot column is fully singular. -/
theorem convert_never_errors (M : CoefficientMatrix)
    (hv : M.validate = .ok M) :
    ∃ M', M.convert = some (.ok M') := by
  obtain ⟨h1, hm⟩ := (validate_ok_iff M).1 hv
  obtain ⟨mat', hrun, _, _⟩ := convert_ok h1 hm
  exact ⟨_, hrun⟩

theorem convert_never_errors_witness :
    (CoefficientMatrix.mk 2 [.new [0, 0] 1, .new [0, 0] 2]).validate =
        .ok (CoefficientMatrix.mk 2 [.new [0, 0] 1, .new [0, 0] 2]) ∧
      ∃ M', (CoefficientMatrix.mk 2 [.new [0, 0] 1, .new [0, 0] 2]).convert =
        some (.ok M') :=
  ⟨by with_unfolding_all decide,
    convert_never_errors _ (by with_unfolding_all decide)⟩

/-- C5 counterexample: for the matrix with column-0 entries `1, 2, 3`, the
pivot-selection loop of the source (which swaps on every strict improvement)
produces a row arrangement different from the single transposition of the
best row into position 0 that the claim describes. -/
theorem pivot_single_swap_counterexample :
    (pivotScan 0 2 1 1 [Equation.new [1, 0, 0] 0, .new [2, 0, 0] 0,
        .new [3, 0, 0] 0]).map Prod.snd ≠
      some (specPivotSelect 3 0 [Equation.new [1, 0, 0] 0, .new [2, 0, 0] 0,
        .new [3, 0, 0] 0]) := by
  with_unfolding_all decide

/-- C5 amended: the pivot-selection step at column `a` swaps the current row
into position `a` each time it scans a row whose column-`a` entry strictly
exceeds the current pivot in absolute value (possibly several swaps, so the
remaining rows need not sit where a single transposition would put them).
After the step, rows before `a` are unchanged, every position in `a..n-1`
holds one of the original rows `a..n-1`, and position `a` holds the earliest
row among `a..n-1` whose column-`a` entry has the largest absolute value. -/
theorem pivot_selection_amended (n a : Nat) (mat : List Equation)
    (hm : shaped n mat) (ha : a < n) :
    ∃ p mat', pivotScan a (n - (a + 1)) (a + 1) (entryAt mat a a) mat = some (p, mat') ∧
      (∀ q, q < a → mat'[q]? = mat[q]?) ∧
      (∀ q, a ≤ q → q < n → ∃ q₀, a ≤ q₀ ∧ q₀ < n ∧ mat'[q]? = mat[q₀]?) ∧
      ∃ j0, a ≤ j0 ∧ j0 < n ∧ mat'[a]? = mat[j0]? ∧
        (∀ q, a ≤ q → q < n → |entryAt mat q a| ≤ |entryAt mat j0 a|) ∧
        (∀ q, a ≤ q → q < j0 → |entryAt mat q a| < |entryAt mat j0 a|) := by
  obtain ⟨p, mat', hrun, hsh, hpa, hple, hlow, hmid, hmap, hmax, hbest⟩ :=
    pivotScan_spec ha (n - (a + 1)) (a + 1) (entryAt mat a a) mat hm (by omega)
      (by omega) rfl
  refine ⟨p, mat', hrun, hlow, ?_, ?_⟩
  · intro q hq1 hq2
    rcases eq_or_ne q a with rfl | hqa
    · obtain ⟨q₀, hq₀, he⟩ := hmap q (Or.inl rfl)
      rcases hq₀ with rfl | ⟨h1, h2⟩
      · exact ⟨q₀, le_refl _, ha, he⟩
      · exact ⟨q₀, by omega, h2, he⟩
    · obtain ⟨q₀, hq₀, he⟩ := hmap q (Or.inr ⟨by omega, hq2⟩)
      rcases hq₀ with rfl | ⟨h1, h2⟩
      · exact ⟨q₀, le_refl _, ha, he⟩
      · exact ⟨q₀, by omega, h2, he⟩
  · rcases hbest with ⟨hea, hep⟩ | ⟨j0, hj1, hj2, hj3, hj4, hj5⟩
    · refine ⟨a, le_refl _, ha, hea, ?_, ?_⟩
      · intro q hq1 hq2
        rcases eq_or_ne q a with rfl | hqa
        · exact le_refl _
        · have := hmax q (by omega) hq2
          rw [hep] at this
          exact this
      · intro q h1 h2
        exact absurd (lt_of_le_of_lt h1 h2) (lt_irrefl a)
    · refine ⟨j0, by omega, hj2, hj3, ?_, ?_⟩
      · intro q hq1 hq2
        rcases eq_or_ne q a with rfl | hqa
        · exact le_of_lt hj4
        · have hpj : |p| = |entryAt mat j0 a| := by
            rw [hpa, entryAt_moved hj3 a]
          have := hmax q (by omega) hq2
          rw [hpj] at this
          exact this
      · intro q hq1 hq2
        rcases eq_or_ne q a with rfl | hqa
        · exact hj4
        · exact hj5 q (by omega) hq2

theorem pivot_selection_amended_witness :
    shaped 3 [Equation.new [1, 0, 0] 0, .new [2, 0, 0] 0, .new [3, 0, 0] 0] ∧
      0 < 3 ∧
      (∃ p mat', pivotScan 0 2 1
          (entryAt [Equation.new [1, 0, 0] 0, .new [2, 0, 0] 0, .new [3, 0, 0] 0] 0 0)
          [Equation.new [1, 0, 0] 0, .new [2, 0, 0] 0, .new [3, 0, 0] 0] =
            some (p, mat') ∧
        (∀ q, q < 0 →
          mat'[q]? = [Equation.new [1, 0, 0] 0, .new [2, 0, 0] 0, .new [3, 0, 0] 0][q]?) ∧
        (∀ q, 0 ≤ q → q < 3 → ∃ q₀, 0 ≤ q₀ ∧ q₀ < 3 ∧
          mat'[q]? = [Equation.new [1, 0, 0] 0, .new [2, 0, 0] 0, .new [3, 0, 0] 0][q₀]?) ∧
        ∃ j0, 0 ≤ j0 ∧ j0 < 3 ∧
          mat'[0]? = [Equation.new [1, 0, 0] 0, .new [2, 0, 0] 0, .new [3, 0, 0] 0][j0]? ∧
          (∀ q, 0 ≤ q → q < 3 →
            |entryAt [Equation.new [1, 0, 0] 0, .new [2, 0, 0] 0, .new [3, 0, 0] 0] q 0| ≤
            |entryAt [Equation.new [1, 0, 0] 0, .new [2, 0, 0] 0, .new [3, 0, 0] 0] j0 0|) ∧
          (∀ q, 0 ≤ q → q < j0 →
            |entryAt [Equation.new [1, 0, 0] 0, .new [2, 0, 0] 0, .new [3, 0, 0] 0] q 0| <
            |entryAt [Equation.new [1, 0, 0] 0, .new [2, 0, 0] 0, .new [3, 0, 0] 0] j0 0|)) :=
  ⟨by with_unfolding_all decide, by decide,
    pivot_selection_amended 3 0 _ (by with_unfolding_all decide) (by decide)⟩

/-- C3: on every validated upper-triangular matrix with nonzero diagonal,
`solve` succeeds, the coefficient block of the result is the identity, and
the result column satisfies every original equation exactly. -/
theorem solve_identity_and_solution (M : CoefficientMatrix)
    (hv : M.validate = .ok M) (hut : lowerZero M.size M.matrix)
    (hd : diagNonzero M.size M.matrix) :
    ∃ M', M.solve = some (.ok M') ∧ isIdentity M.size M'.matrix ∧
      ∀ i, i < M.size → ∑ j ∈ Finset.range M.size,
        entryAt M.matrix i j * resAt M'.matrix j = resAt M.matrix i := by
  obtain ⟨h1, hm⟩ := (validate_ok_iff M).1 hv
  obtain ⟨mat', hrun, hsh, hident, heqs⟩ :=
    solveLoop_invariant M.matrix hut hd M.size M.matrix (le_refl _) hm
      (fun k hk1 hk2 => absurd (lt_of_le_of_lt hk1 hk2) (lt_irrefl _))
      (fun j _ c hc => ⟨fun _ => rfl, fun hc' => absurd (lt_of_le_of_lt hc' hc) (lt_irrefl _)⟩)
      (fun j _ => by rw [Finset.Ico_self, Finset.sum_empty, sub_zero])
      (fun k hk1 hk2 => absurd (lt_of_le_of_lt hk1 hk2) (lt_irrefl _))
  refine ⟨⟨M.size, mat'⟩, ?_, ?_, ?_⟩
  · unfold CoefficientMatrix.solve
    rw [hrun]
    rfl
  · intro r hr c hc
    rw [hident r hr c hc]
    by_cases h : r = c
    · rw [if_pos h, if_pos h.symm]
    · rw [if_neg (fun hh => h hh.symm), if_neg h]
  · exact heqs

theorem solve_identity_and_solution_witness :
    (CoefficientMatrix.mk 2 [.new [8, -6] 2, .new [0, 9/2] (3/2)]).validate =
        .ok (CoefficientMatrix.mk 2 [.new [8, -6] 2, .new [0, 9/2] (3/2)]) ∧
      lowerZero 2 [Equation.new [8, -6] 2, .new [0, 9/2] (3/2)] ∧
      diagNonzero 2 [Equation.new [8, -6] 2, .new [0, 9/2] (3/2)] ∧
      ∃ M', (CoefficientMatrix.mk 2 [.new [8, -6] 2, .new [0, 9/2] (3/2)]).solve =
          some (.ok M') ∧ isIdentity 2 M'.matrix ∧
        ∀ i, i < 2 → ∑ j ∈ Finset.range 2,
          entryAt [Equation.new [8, -6] 2, .new [0, 9/2] (3/2)] i j *
            resAt M'.matrix j =
          resAt [Equation.new [8, -6] 2, .new [0, 9/2] (3/2)] i :=
  ⟨by with_unfolding_all decide, by with_unfolding_all decide,
    by with_unfolding_all decide,
    solve_identity_and_solution _ (by with_unfolding_all decide)
      (by with_unfolding_all decide) (by with_unfolding_all decide)⟩

/-- C4: whenever the `solve` loop reaches a row `i` (processing rows from
`n-1` down to `0`) whose diagonal entry is zero, the whole remaining
computation aborts at once with `DependentSolutionSet` when that row's
result is also zero and with `EmptySolutionSet` otherwise; no partial matrix
is returned. -/
theorem solve_zero_divisor_classification {n i : Nat} {mat : List Equation}
    {rowi : Equation} (hri : mat[i]? = some rowi) (hdi : rowi.get i = some 0) :
    solveLoop n (i + 1) mat =
      some (.error (if rowi.getResult = 0 then SolveError.DependentSolutionSet
        else SolveError.EmptySolutionSet)) := by
  simp only [solveLoop, hri, hdi, Option.bind_eq_bind, Option.some_bind, if_true]
  by_cases hr : rowi.getResult = 0
  · rw [if_pos hr, if_pos hr]
  · rw [if_neg hr, if_neg hr]

theorem solve_zero_divisor_classification_witness :
    ([Equation.new [0] 5] : List Equation)[0]? = some (.new [0] 5) ∧
      (Equation.new [0] 5).get 0 = some 0 ∧
      solveLoop 1 1 [Equation.new [0] 5] =
        some (.error (if (Equation.new [0] 5).getResult = 0 then
          SolveError.DependentSolutionSet else SolveError.EmptySolutionSet)) :=
  ⟨rfl, rfl, solve_zero_divisor_classification rfl rfl⟩

/-- C7: when `n ≥ 1` and the row count matches but at least one row has an
unfitting coefficient count, `validate` reports the length of the LAST
offending row in scan order (paired with `n`), not the first. -/
theorem validate_reports_last_unfitting (M : CoefficientMatrix)
    (h1 : 1 ≤ M.size) (hl : M.matrix.length = M.size)
    (hbad : ∃ e ∈ M.matrix, e.len ≠ M.size) :
    ∃ L, ((M.matrix.filter (fun e => e.len != M.size)).map Equation.len).getLast? =
        some L ∧
      M.validate = .error (.UnfittingCoefficientAmount L M.size) := by
  have hne : M.matrix.filter (fun e => e.len != M.size) ≠ [] := by
    obtain ⟨e, he, hlen⟩ := hbad
    intro hnil
    have hmem : e ∈ M.matrix.filter (fun e => e.len != M.size) :=
      List.mem_filter.2 ⟨he, by simp [hlen]⟩
    rw [hnil] at hmem
    exact absurd hmem (List.not_mem_nil e)
  have hne2 : (M.matrix.filter (fun e => e.len != M.size)).map Equation.len ≠ [] := by
    intro h
    exact hne (List.map_eq_nil_iff.1 h)
  obtain ⟨x, xs, hx⟩ := List.exists_cons_of_ne_nil hne2
  refine ⟨(x :: xs).getLast (by simp), by rw [hx, List.getLast?_eq_getLast], ?_⟩
  unfold CoefficientMatrix.validate
  rw [if_neg (by omega), if_pos hl, unfitFold_last _ _ hne, hx,
    List.getLast?_eq_getLast]

theorem validate_reports_last_unfitting_witness :
    1 ≤ (CoefficientMatrix.mk 2 [.new [8, -6, 3] 2, .new [0] (3/2)]).size ∧
      (CoefficientMatrix.mk 2 [.new [8, -6, 3] 2, .new [0] (3/2)]).matrix.length = 2 ∧
      (∃ e ∈ (CoefficientMatrix.mk 2 [.new [8, -6, 3] 2, .new [0] (3/2)]).matrix,
        e.len ≠ 2) ∧
      ∃ L, ((([Equation.new [8, -6, 3] 2, .new [0] (3/2)]).filter
            (fun e => e.len != 2)).map Equation.len).getLast? = some L ∧
        (CoefficientMatrix.mk 2 [.new [8, -6, 3] 2, .new [0] (3/2)]).validate =
          .error (.UnfittingCoefficientAmount L 2) :=
  ⟨by decide, by decide, by with_unfolding_all decide,
    validate_reports_last_unfitting
      (CoefficientMatrix.mk 2 [.new [8, -6, 3] 2, .new [0] (3/2)]) (by decide) (by decide)
      (by with_unfolding_all decide)⟩

/-- C8: `validate` rejects `n < 1` with `TooSmall n`, rejects (when `n ≥ 1`)
a row count different from `n` with `UnfittingEquationAmount (count, n)`,
and any successful validation returns the same matrix unchanged. -/
theorem validate_shape_checks (M : CoefficientMatrix) :
    (M.size < 1 → M.validate = .error (.TooSmall M.size)) ∧
    (1 ≤ M.size → M.matrix.length ≠ M.size →
      M.validate = .error (.UnfittingEquationAmount M.matrix.length M.size)) ∧
    (∀ M', M.validate = .ok M' → M' = M) := by
  refine ⟨?_, ?_, ?_⟩
  · intro h
    unfold CoefficientMatrix.validate
    rw [if_pos h]
  · intro h1 h2
    unfold CoefficientMatrix.validate
    rw [if_neg (by omega), if_neg h2]
  · intro M' h
    unfold CoefficientMatrix.validate at h
    by_cases hs : M.size < 1
    · rw [if_pos hs] at h
      exact absurd h (by simp)
    · rw [if_neg hs] at h
      by_cases hl : M.matrix.length = M.size
      · rw [if_pos hl] at h
        rcases hf : M.matrix.foldl
            (fun ua e => if e.len ≠ M.size then some e.len else ua) none with _ | am
        · rw [hf] at h
          injection h with h'
          exact h'.symm
        · rw [hf] at h
          exact absurd h (by simp)
      · rw [if_neg hl] at h
        exact absurd h (by simp)

theorem validate_shape_checks_witness :
    (CoefficientMatrix.mk 0 []).validate = .error (.TooSmall 0) ∧
      (CoefficientMatrix.mk 2 [.new [8, -6] 2]).validate =
        .error (.UnfittingEquationAmount 1 2) ∧
      (CoefficientMatrix.mk 2 [.new [8, -6] 2, .new [0, 9/2] (3/2)] : CoefficientMatrix) =
        CoefficientMatrix.mk 2 [.new [8, -6] 2, .new [0, 9/2] (3/2)] :=
  ⟨(validate_shape_checks _).1 (by decide),
    (validate_shape_checks _).2.1 (by decide) (by decide),
    (validate_shape_checks
      (CoefficientMatrix.mk 2 [.new [8, -6] 2, .new [0, 9/2] (3/2)])).2.2 _
      (by with_unfolding_all decide)⟩

/-- The Horner fold computes the polynomial value from any starting sum. -/
theorem horner_foldl (x : ℚ) : ∀ (l : List ℚ) (init : ℚ),
    l.foldl (fun sum coefficient => coefficient + sum * x) init =
      init * x ^ l.length + polyVal l x
  | [], init => by simp [polyVal]
  | c :: t, init => by
    rw [List.foldl_cons, horner_foldl x t (c + init * x)]
    show _ = init * x ^ (t.length + 1) + polyVal (c :: t) x
    rw [polyVal]
    ring

/-- C9: `eval` fails exactly on the empty coefficient sequence, and on a
non-empty sequence returns the value of the polynomial (highest degree
first) at the evaluation point. -/
theorem eval_horner (coefficients : List ℚ) (x : ℚ) :
    (eval coefficients x = .error .EvaluationError ↔ coefficients = []) ∧
    (coefficients ≠ [] → eval coefficients x = .ok (polyVal coefficients x)) := by
  cases coefficients with
  | nil => exact ⟨⟨fun _ => rfl, fun _ => rfl⟩, fun h => absurd rfl h⟩
  | cons c t =>
    constructor
    · constructor
      · intro h
        exact absurd h (by simp [eval])
      · intro h
        exact absurd h (by simp)
    · intro _
      have hf := horner_foldl x t c
      simp only [eval, hf, polyVal]

theorem eval_horner_witness :
    ([(2 : ℚ), 3] ≠ ([] : List ℚ)) ∧
      eval [2, 3] 5 = .ok (polyVal [2, 3] 5) :=
  ⟨by simp, (eval_horner [2, 3] 5).2 (by simp)⟩

/-- C10: on every validated matrix, neither `convert` nor `solve` performs an
out-of-range access: both run to completion (`isSome`), so the unchecked
unwraps of the source never fail. -/
theorem no_panic_when_validated (M : CoefficientMatrix)
    (hv : M.validate = .ok M) :
    M.convert.isSome ∧ M.solve.isSome := by
  obtain ⟨h1, hm⟩ := (validate_ok_iff M).1 hv
  constructor
  · obtain ⟨mat', hrun, _, _⟩ := convert_ok h1 hm
    rw [hrun]
    rfl
  · obtain ⟨r, hr⟩ := solveLoop_total M.size M.matrix (le_refl _) hm
    unfold CoefficientMatrix.solve
    rw [hr]
    cases r with
    | ok mat => rfl
    | error e => rfl

theorem no_panic_when_validated_witness :
    (CoefficientMatrix.mk 2 [.new [8, -6] 2, .new [2, 3] 2]).validate =
        .ok (CoefficientMatrix.mk 2 [.new [8, -6] 2, .new [2, 3] 2]) ∧
      (CoefficientMatrix.mk 2 [.new [8, -6] 2, .new [2, 3] 2]).convert.isSome ∧
      (CoefficientMatrix.mk 2 [.new [8, -6] 2, .new [2, 3] 2]).solve.isSome :=
  ⟨by with_unfolding_all decide,
    no_panic_when_validated _ (by with_unfolding_all decide)⟩

end LinSolve
